import Mathlib

/- A shallow embedding of the wasmtest repository: the `Datastore` trait and its
two backends, the host capability functions `write_key_func` and `read_key_func`,
the orchestrator `function_handler` (src/runner/src/main.rs), and the guest
library entry point (src/wasmtest/src/lib.rs).

Machine bytes are modelled as `Nat` values (the byte range is immaterial to the
claims; concrete byte strings only use values below 256); guest linear memory is
a `List Nat` of its bytes.  Fallible host memory accesses — wasmtime
`Memory.read` / `Memory.write`, which the runner `unwrap`s, and the final slice
indexing, which panics when out of range — return `Option`, with `none` standing
for the fatal abort of the request. -/

namespace Wasmtest

/-- A byte string (each entry one byte). -/
abbrev Bytes := List Nat

/-- The ephemeral datastore backend `HashMap<Vec<u8>, Vec<u8>>`, modelled as an
association list with the newest binding first: `insert` prepends and `get`
returns the newest binding, which is observably the map's replace-on-insert
behaviour. -/
abbrev Store := List (Bytes × Bytes)

/-- `HashMap::insert` (main.rs, `put_item` impl for `HashMap`, line 19). -/
def storeInsert (st : Store) (k v : Bytes) : Store := (k, v) :: st

/-- `HashMap::get(...).map(Clone::clone)` (main.rs, `get_item` impl, line 23). -/
def storeGet : Store → Bytes → Option Bytes
  | [], _ => none
  | (k1, v) :: rest, k => if k1 = k then some v else storeGet rest k

/-- wasmtime `Memory.read(ctx, base, buf)` for a `buf` of length `len`: fails
(`MemoryAccessError`, which the runner `unwrap`s) unless `base + len` fits in
the current region size; otherwise returns exactly the `len` bytes starting at
`base`.  Never a truncated or wrapped read. -/
def memRead (m : Bytes) (base len : Nat) : Option Bytes :=
  if base + len ≤ m.length then some ((m.drop base).take len) else none

/-- wasmtime `Memory.write(ctx, base, data)`: fails unless `base + data.len()`
fits in the current region size; otherwise overwrites exactly that range.
Never a partial or wrapped write. -/
def memWrite (m : Bytes) (base : Nat) (data : Bytes) : Option Bytes :=
  if base + data.length ≤ m.length then
    some (m.take base ++ (data ++ m.drop (base + data.length)))
  else none

/-- `u32::to_le_bytes` composed with the `usize as u32` cast (truncation mod
2^32 is inherent in taking the four low-order bytes). -/
def toLe32 (n : Nat) : Bytes :=
  [n % 256, n / 256 % 256, n / 65536 % 256, n / 16777216 % 256]

/-- `u32::from_le_bytes` / `i32::from_le_bytes` on a 4-byte buffer, as the
unsigned bit pattern. -/
def fromLe32 (bs : Bytes) : Nat :=
  match bs with
  | [a, b, c, d] => a % 256 + 256 * (b % 256) + 65536 * (c % 256) + 16777216 * (d % 256)
  | _ => 0

/-- The runner's `i32::from_le_bytes(..) as usize` on a 64-bit host: a bit
pattern with the sign bit set sign-extends to a huge `usize`.  `n` is the
unsigned 32-bit pattern. -/
def i32AsUsize (n : Nat) : Nat :=
  if n < 2147483648 then n else 18446744073709551616 - 4294967296 + n

/-- The host import `write_key_func` (main.rs lines 91-106): read the key bytes
out of guest memory, read the value bytes, insert into the datastore.  Guest
memory is left unmodified, so only the updated store is returned; any failed
memory read is `unwrap`ed in the source, i.e. `none` here. -/
def write_key_func (st : Store) (m : Bytes) (kb kl vb vl : Nat) : Option Store := do
  let key ← memRead m kb kl
  let value ← memRead m vb vl
  pure (storeInsert st key value)

/-- The host import `read_key_func` (main.rs lines 108-125): read the key bytes,
look the key up (absent keys default to the empty byte string), write the result
into the tail of guest memory at `data_size - result.len()`, then write the
`(result_offset, result_length)` header as two little-endian `u32` words at the
caller-supplied `result_base` and `result_base + 4`.  The datastore is only
read, never modified.

The source computes `result_offset` with `usize` subtraction; when the result is
longer than the region the source aborts (underflow panic, or a failing
out-of-bounds write after wraparound), and here the truncated `Nat` subtraction
makes the tail write fail for the same inputs, so both return abort. -/
def read_key_func (st : Store) (m : Bytes) (result_base kb kl : Nat) :
    Option (Store × Bytes) := do
  let key ← memRead m kb kl
  let result := (storeGet st key).getD []
  let result_offset := m.length - result.length
  let m1 ← memWrite m result_offset result
  let m2 ← memWrite m1 result_base (toLe32 result_offset)
  let m3 ← memWrite m2 (result_base + 4) (toLe32 result.length)
  pure (st, m3)

/-- The tail-write encoding step of the marshaling protocol, exactly the three
writes of `read_key_func` (main.rs lines 118-121): payload at
`(region size) - (payload length)`, then the `(offset, length)` header at the
caller-supplied header offset. -/
def tailEncode (m : Bytes) (hdr : Nat) (bs : Bytes) : Option Bytes := do
  let off := m.length - bs.length
  let m1 ← memWrite m off bs
  let m2 ← memWrite m1 hdr (toLe32 off)
  memWrite m2 (hdr + 4) (toLe32 bs.length)

/-- The decoding step: read the two header words and slice the referenced range
out of the region, exactly the result extraction of `function_handler`
(main.rs lines 141-148), at a general header offset. -/
def tailDecode (m : Bytes) (hdr : Nat) : Option Bytes := do
  let baseBytes ← memRead m hdr 4
  let lenBytes ← memRead m (hdr + 4) 4
  memRead m (i32AsUsize (fromLe32 baseBytes)) (i32AsUsize (fromLe32 lenBytes))

/-- The orchestrator's result extraction (main.rs lines 141-148): read the
little-endian `u32` at offsets 0 and 4, then slice
`memory.data()[base..][..len]` — the slice indexing panics (fatal abort) when
the range exceeds the region. -/
def extractResult (m : Bytes) : Option Bytes := do
  let baseBytes ← memRead m 0 4
  let lenBytes ← memRead m 4 4
  memRead m (i32AsUsize (fromLe32 baseBytes)) (i32AsUsize (fromLe32 lenBytes))

/-- b"foo" -/
def fooBytes : Bytes := [102, 111, 111]

/-- b"bar" -/
def barBytes : Bytes := [98, 97, 114]

/-- b"hello" -/
def helloBytes : Bytes := [104, 101, 108, 108, 111]

/-- b"world" -/
def worldBytes : Bytes := [119, 111, 114, 108, 100]

/-- The store `function_handler` builds for every request: `HashMap::new()`
followed by `insert(b"foo", b"bar")` (main.rs lines 76-80). -/
def seedStore : Store := storeInsert [] fooBytes barBytes

/-- The shape of a guest entry point as the host sees it: arguments
`(result_header_offset, body_offset, body_length)` plus the store and the guest
memory it runs against; it returns the final store and memory, or `none` for a
trap/abort. -/
def GuestEntry := Nat → Nat → Nat → Store → Bytes → Option (Store × Bytes)

/-- The orchestrator `function_handler` (main.rs lines 60-161), from the point
where the instance exists: write the request body into guest memory at offset 8,
call the exported `entry` with `(0, 8, body.len())`, then read the result header
from offsets 0 and 4 and slice the result out of the final memory.  `m0` is the
instance's initial linear memory; the datastore is the freshly-built seeded
store.  Compilation, instantiation and the HTTP wrapping are outside the model. -/
def function_handler (entry : GuestEntry) (body : Bytes) (m0 : Bytes) : Option Bytes := do
  let m1 ← memWrite m0 8 body
  let r ← entry 0 8 body.length seedStore m1
  let baseBytes ← memRead r.2 0 4
  let lenBytes ← memRead r.2 4 4
  memRead r.2 (i32AsUsize (fromLe32 baseBytes)) (i32AsUsize (fromLe32 lenBytes))

/-- A run of the service: `function_handler` is invoked once per inbound
request, and builds its store and instance afresh each time (main.rs lines
60-85), so a batch of requests is just the map of the handler over the bodies. -/
def server_run (entry : GuestEntry) (m0 : Bytes) (bodies : List Bytes) : List (Option Bytes) :=
  bodies.map (fun b => function_handler entry b m0)

/-- The guest entry point of src/wasmtest/src/lib.rs (lines 44-54), at the
granularity of its capability calls and memory accesses:

  1. `datastore::write(body, b"world")` — `write_key` with the body slice as
     the key and the static `b"world"` as the value;
  2. `datastore::read(b"foo", ...)` — `read_key` with an out-parameter slot
     (`sretA`) for the returned `WasmBytes`, then the guest reads that
     `(offset, length)` header and the referenced tail bytes;
  3. inside the closure, `datastore::write(b"world", value)` — `write_key`
     whose value operand points at the tail bytes just produced;
  4. `value.into()` copies the tail bytes into a fresh `Vec` (its allocation
     placed at `allocA`), and `*result = WasmBytes::from_slice(&res)` stores
     the `(base, len)` pair at the result header offset.

`worldA` and `fooA` are the addresses of the static `b"world"` and `b"foo"`
data in the guest image; `sretA` and `allocA` are the stack slot and heap
allocation the compiled guest uses.  Guest-side dereferences are modelled with
the same bounds-checked `memRead`/`memWrite`; in the verified scenario they are
all in bounds. -/
def guest_entry (worldA fooA sretA allocA : Nat) : GuestEntry :=
  fun result_hdr body_off body_len st m => do
    let st1 ← write_key_func st m body_off body_len worldA 5
    let r ← read_key_func st1 m sretA fooA 3
    let m1 := r.2
    let offB ← memRead m1 sretA 4
    let lenB ← memRead m1 (sretA + 4) 4
    let vOff := fromLe32 offB
    let vLen := fromLe32 lenB
    let st2 ← write_key_func r.1 m1 worldA 5 vOff vLen
    let value ← memRead m1 vOff vLen
    let m2 ← memWrite m1 allocA value
    let m3 ← memWrite m2 result_hdr (toLe32 allocA)
    let m4 ← memWrite m3 (result_hdr + 4) (toLe32 value.length)
    pure (st2, m4)

/-- A concrete 64-byte initial guest memory for the end-to-end scenario: the
static data `b"world"` at offset 16 and `b"foo"` at offset 24, zero elsewhere. -/
def demoMem : Bytes :=
  List.replicate 16 0 ++ (worldBytes ++ (List.replicate 3 0 ++ (fooBytes ++ List.replicate 37 0)))

/-- The guest run of the end-to-end scenario, exposing the final store: body
`b"hello"` written at offset 8, then `guest_entry` invoked with the arguments
`function_handler` passes, against the seeded store. -/
def demoRun : Option (Store × Bytes) :=
  (memWrite demoMem 8 helloBytes).bind
    (fun m1 => guest_entry 16 24 32 40 0 8 helloBytes.length seedStore m1)

/-- The UTF-8 encoding of U+FFFD REPLACEMENT CHARACTER, which
`String::from_utf8_lossy` substitutes for each maximal invalid subpart. -/
def repl : Bytes := [239, 191, 189]

/-- `String::from_utf8_lossy(bytes).to_string()`, viewed as the UTF-8 bytes of
the resulting string (string equality is equality of these bytes).  Valid UTF-8
sequences are passed through; each maximal subpart of an ill-formed sequence is
replaced by U+FFFD, restarting at the first offending byte, exactly the
substitution of core's `Utf8Chunks` validation: lead byte ranges `00..7F` (one
byte), `C2..DF` (two), `E0..EF` (three, with the second byte restricted to
`A0..BF` after `E0` and `80..9F` after `ED`), `F0..F4` (four, with the second
byte restricted to `90..BF` after `F0` and `80..8F` after `F4`), continuation
bytes `80..BF`. -/
def utf8Lossy : List Nat → Bytes
  | [] => []
  | b :: rest =>
    if b ≤ 0x7F then b :: utf8Lossy rest
    else if b < 0xC2 ∨ 0xF4 < b then repl ++ utf8Lossy rest
    else
      match rest with
      | [] => repl
      | b2 :: rest2 =>
        if b ≤ 0xDF then
          if 0x80 ≤ b2 ∧ b2 ≤ 0xBF then b :: b2 :: utf8Lossy rest2
          else repl ++ utf8Lossy (b2 :: rest2)
        else if b ≤ 0xEF then
          if (if b = 0xE0 then 0xA0 else 0x80) ≤ b2 ∧ b2 ≤ (if b = 0xED then 0x9F else 0xBF) then
            match rest2 with
            | [] => repl
            | b3 :: rest3 =>
              if 0x80 ≤ b3 ∧ b3 ≤ 0xBF then b :: b2 :: b3 :: utf8Lossy rest3
              else repl ++ utf8Lossy (b3 :: rest3)
          else repl ++ utf8Lossy (b2 :: rest2)
        else
          if (if b = 0xF0 then 0x90 else 0x80) ≤ b2 ∧ b2 ≤ (if b = 0xF4 then 0x8F else 0xBF) then
            match rest2 with
            | [] => repl
            | b3 :: rest3 =>
              if 0x80 ≤ b3 ∧ b3 ≤ 0xBF then
                match rest3 with
                | [] => repl
                | b4 :: rest4 =>
                  if 0x80 ≤ b4 ∧ b4 ≤ 0xBF then b :: b2 :: b3 :: b4 :: utf8Lossy rest4
                  else repl ++ utf8Lossy (b4 :: rest4)
              else repl ++ utf8Lossy (b3 :: rest3)
          else repl ++ utf8Lossy (b2 :: rest2)

/-- Well-formed UTF-8 byte strings, following the table in the Unicode
standard (the same ranges listed at `utf8Lossy`). -/
inductive ValidUtf8 : Bytes → Prop where
  | nil : ValidUtf8 []
  | one {b rest} : b ≤ 0x7F → ValidUtf8 rest → ValidUtf8 (b :: rest)
  | two {b b2 rest} : 0xC2 ≤ b → b ≤ 0xDF → 0x80 ≤ b2 → b2 ≤ 0xBF →
      ValidUtf8 rest → ValidUtf8 (b :: b2 :: rest)
  | threeE0 {b2 b3 rest} : 0xA0 ≤ b2 → b2 ≤ 0xBF → 0x80 ≤ b3 → b3 ≤ 0xBF →
      ValidUtf8 rest → ValidUtf8 (0xE0 :: b2 :: b3 :: rest)
  | threeMid {b b2 b3 rest} : 0xE1 ≤ b → b ≤ 0xEC → 0x80 ≤ b2 → b2 ≤ 0xBF →
      0x80 ≤ b3 → b3 ≤ 0xBF → ValidUtf8 rest → ValidUtf8 (b :: b2 :: b3 :: rest)
  | threeED {b2 b3 rest} : 0x80 ≤ b2 → b2 ≤ 0x9F → 0x80 ≤ b3 → b3 ≤ 0xBF →
      ValidUtf8 rest → ValidUtf8 (0xED :: b2 :: b3 :: rest)
  | threeHi {b b2 b3 rest} : 0xEE ≤ b → b ≤ 0xEF → 0x80 ≤ b2 → b2 ≤ 0xBF →
      0x80 ≤ b3 → b3 ≤ 0xBF → ValidUtf8 rest → ValidUtf8 (b :: b2 :: b3 :: rest)
  | fourF0 {b2 b3 b4 rest} : 0x90 ≤ b2 → b2 ≤ 0xBF → 0x80 ≤ b3 → b3 ≤ 0xBF →
      0x80 ≤ b4 → b4 ≤ 0xBF → ValidUtf8 rest → ValidUtf8 (0xF0 :: b2 :: b3 :: b4 :: rest)
  | fourMid {b b2 b3 b4 rest} : 0xF1 ≤ b → b ≤ 0xF3 → 0x80 ≤ b2 → b2 ≤ 0xBF →
      0x80 ≤ b3 → b3 ≤ 0xBF → 0x80 ≤ b4 → b4 ≤ 0xBF → ValidUtf8 rest →
      ValidUtf8 (b :: b2 :: b3 :: b4 :: rest)
  | fourF4 {b2 b3 b4 rest} : 0x80 ≤ b2 → b2 ≤ 0x8F → 0x80 ≤ b3 → b3 ≤ 0xBF →
      0x80 ≤ b4 → b4 ≤ 0xBF → ValidUtf8 rest → ValidUtf8 (0xF4 :: b2 :: b3 :: b4 :: rest)

/-- The remote key-value service behind `DynamoDBDatastore`, modelled per the
external-interface contract (spec section 6: binary-valued item put/get by a
single string-like key): a mapping from service keys — string contents, held as
their UTF-8 bytes — to byte values. -/
abbrev Table := List (Bytes × Bytes)

/-- `DynamoDBDatastore::put_item` (main.rs lines 33-37): the byte key is turned
into the service key with `String::from_utf8_lossy(&key).to_string()` and the
value is stored under it as a binary attribute. -/
def dynamo_put_item (t : Table) (k v : Bytes) : Table :=
  storeInsert t (utf8Lossy k) v

/-- `DynamoDBDatastore::get_item` (main.rs lines 39-51): look up the item under
`String::from_utf8_lossy(&key).to_string()` and return its binary value if
present. -/
def dynamo_get_item (t : Table) (k : Bytes) : Option Bytes :=
  storeGet t (utf8Lossy k)

/- ## Basic facts about the memory accessors -/

theorem memWrite_eq_some_iff {m d m' : Bytes} {b : Nat} :
    memWrite m b d = some m' ↔
      b + d.length ≤ m.length ∧ m' = m.take b ++ (d ++ m.drop (b + d.length)) := by
  unfold memWrite
  split
  · constructor
    · intro h
      exact ⟨by assumption, (Option.some_inj.mp h).symm⟩
    · intro h
      rw [h.2]
  · constructor
    · intro h
      cases h
    · intro h
      exact absurd h.1 (by assumption)

theorem memWrite_isSome {m d : Bytes} {b : Nat} (h : b + d.length ≤ m.length) :
    memWrite m b d = some (m.take b ++ (d ++ m.drop (b + d.length))) := by
  unfold memWrite
  rw [if_pos h]

theorem memWrite_length {m d m' : Bytes} {b : Nat} (h : memWrite m b d = some m') :
    m'.length = m.length := by
  obtain ⟨hb, rfl⟩ := memWrite_eq_some_iff.mp h
  simp only [List.length_append, List.length_take, List.length_drop]
  omega

theorem memWrite_getElem? {m d m' : Bytes} {b : Nat} (h : memWrite m b d = some m') (i : Nat) :
    m'[i]? = if i < b then m[i]?
      else if i < b + d.length then d[i - b]?
      else m[i]? := by
  obtain ⟨hb, rfl⟩ := memWrite_eq_some_iff.mp h
  have hbm : b ≤ m.length := by omega
  have htk : (m.take b).length = b := by
    simp only [List.length_take]
    omega
  by_cases h1 : i < b
  · rw [if_pos h1, List.getElem?_append_left (by rw [htk]; exact h1), List.getElem?_take_of_lt h1]
  · rw [if_neg h1, List.getElem?_append_right (by rw [htk]; omega), htk]
    by_cases h2 : i < b + d.length
    · rw [if_pos h2, List.getElem?_append_left (by omega)]
    · rw [if_neg h2, List.getElem?_append_right (by omega), List.getElem?_drop]
      congr 1
      omega

theorem memWrite_getElem?_lt {m d m' : Bytes} {b : Nat} (h : memWrite m b d = some m')
    {i : Nat} (hi : i < b) : m'[i]? = m[i]? := by
  rw [memWrite_getElem? h i, if_pos hi]

theorem memWrite_getElem?_ge {m d m' : Bytes} {b : Nat} (h : memWrite m b d = some m')
    {i : Nat} (hi : b + d.length ≤ i) : m'[i]? = m[i]? := by
  rw [memWrite_getElem? h i, if_neg (by omega), if_neg (by omega)]

theorem memWrite_getElem?_mid {m d m' : Bytes} {b : Nat} (h : memWrite m b d = some m')
    {i : Nat} (hb : b ≤ i) (hi : i < b + d.length) : m'[i]? = d[i - b]? := by
  rw [memWrite_getElem? h i, if_neg (by omega), if_pos hi]

theorem memRead_eq_some_iff {m bs : Bytes} {b l : Nat} :
    memRead m b l = some bs ↔ b + l ≤ m.length ∧ bs = (m.drop b).take l := by
  unfold memRead
  split
  · constructor
    · intro h
      exact ⟨by assumption, (Option.some_inj.mp h).symm⟩
    · intro h
      rw [h.2]
  · constructor
    · intro h
      cases h
    · intro h
      exact absurd h.1 (by assumption)

theorem memRead_length {m bs : Bytes} {b l : Nat} (h : memRead m b l = some bs) :
    bs.length = l := by
  obtain ⟨hb, rfl⟩ := memRead_eq_some_iff.mp h
  simp only [List.length_take, List.length_drop]
  omega

theorem memRead_getElem? {m bs : Bytes} {b l : Nat} (h : memRead m b l = some bs)
    {i : Nat} (hi : i < l) : bs[i]? = m[b + i]? := by
  obtain ⟨hb, rfl⟩ := memRead_eq_some_iff.mp h
  rw [List.getElem?_take_of_lt hi, List.getElem?_drop]

theorem memRead_of_getElem? {m d : Bytes} {b l : Nat} (hb : b + l ≤ m.length)
    (hd : d.length = l) (h : ∀ i, i < l → m[b + i]? = d[i]?) :
    memRead m b l = some d := by
  rw [memRead_eq_some_iff]
  refine ⟨hb, ?_⟩
  apply List.ext_getElem?
  intro i
  by_cases hi : i < l
  · rw [List.getElem?_take_of_lt hi, List.getElem?_drop]
    exact (h i hi).symm
  · have h1 : d[i]? = none := List.getElem?_eq_none (by omega)
    have h2 : ((m.drop b).take l)[i]? = none := by
      apply List.getElem?_eq_none
      simp only [List.length_take, List.length_drop]
      omega
    rw [h1, h2]

theorem memRead_none {m : Bytes} {b l : Nat} (h : m.length < b + l) :
    memRead m b l = none := by
  unfold memRead
  rw [if_neg (by omega)]

/- ## The little-endian header words -/

theorem toLe32_length (n : Nat) : (toLe32 n).length = 4 := rfl

theorem fromLe32_toLe32 {n : Nat} (h : n < 4294967296) : fromLe32 (toLe32 n) = n := by
  simp only [toLe32, fromLe32]
  omega

theorem i32AsUsize_small {n : Nat} (h : n < 2147483648) : i32AsUsize n = n := by
  unfold i32AsUsize
  rw [if_pos h]

/- ## The tail-write convention -/

/-- `read_key_func` is the key read followed by the tail-write encoding of the
looked-up value, the store passed through unchanged. -/
theorem read_key_func_eq_tailEncode (st : Store) (m : Bytes) (rb kb kl : Nat) :
    read_key_func st m rb kb kl =
      (memRead m kb kl).bind (fun key =>
        (tailEncode m rb ((storeGet st key).getD [])).map (fun mm => (st, mm))) := by
  simp only [read_key_func, tailEncode, Option.bind_eq_bind, Option.pure_def]
  cases memRead m kb kl with
  | none => rfl
  | some key =>
    simp only [Option.some_bind]
    cases memWrite m (m.length - ((storeGet st key).getD []).length)
        ((storeGet st key).getD []) with
    | none => rfl
    | some m1 =>
      simp only [Option.some_bind]
      cases memWrite m1 rb (toLe32 (m.length - ((storeGet st key).getD []).length)) with
      | none => rfl
      | some m2 =>
        simp only [Option.some_bind]
        cases memWrite m2 (rb + 4) (toLe32 ((storeGet st key).getD []).length) with
        | none => rfl
        | some m3 => rfl

/-- Everything the three writes of the tail-write convention do to the region:
the encode succeeds whenever payload and header fit, preserves the region size,
leaves every byte outside the payload tail and the 8 header bytes unchanged,
and — when the header does not overlap the tail — the payload and the two
header words read back exactly. -/
theorem tailEncode_spec {m bs : Bytes} {hdr : Nat}
    (hbs : bs.length ≤ m.length) (hh : hdr + 8 ≤ m.length) :
    ∃ m3, tailEncode m hdr bs = some m3 ∧
      m3.length = m.length ∧
      (∀ i, i < m.length - bs.length → (i < hdr ∨ hdr + 8 ≤ i) → m3[i]? = m[i]?) ∧
      (hdr + 8 ≤ m.length - bs.length →
        memRead m3 (m.length - bs.length) bs.length = some bs ∧
        memRead m3 hdr 4 = some (toLe32 (m.length - bs.length)) ∧
        memRead m3 (hdr + 4) 4 = some (toLe32 bs.length)) := by
  obtain ⟨m1, w1⟩ : ∃ m1, memWrite m (m.length - bs.length) bs = some m1 :=
    ⟨_, memWrite_isSome (by omega)⟩
  have l1 := memWrite_length w1
  obtain ⟨m2, w2⟩ : ∃ m2, memWrite m1 hdr (toLe32 (m.length - bs.length)) = some m2 :=
    ⟨_, memWrite_isSome (by rw [toLe32_length, l1]; omega)⟩
  have l2 := memWrite_length w2
  obtain ⟨m3, w3⟩ : ∃ m3, memWrite m2 (hdr + 4) (toLe32 bs.length) = some m3 :=
    ⟨_, memWrite_isSome (by rw [toLe32_length, l2, l1]; omega)⟩
  have l3 := memWrite_length w3
  refine ⟨m3, ?_, by rw [l3, l2, l1], ?_, ?_⟩
  · simp only [tailEncode, Option.bind_eq_bind]
    rw [w1]
    simp only [Option.some_bind]
    rw [w2]
    simp only [Option.some_bind]
    exact w3
  · intro i hi hout
    have e3 : m3[i]? = m2[i]? := by
      rcases hout with hlt | hge
      · exact memWrite_getElem?_lt w3 (by omega)
      · exact memWrite_getElem?_ge w3 (by rw [toLe32_length]; omega)
    have e2 : m2[i]? = m1[i]? := by
      rcases hout with hlt | hge
      · exact memWrite_getElem?_lt w2 hlt
      · exact memWrite_getElem?_ge w2 (by rw [toLe32_length]; omega)
    have e1 : m1[i]? = m[i]? := memWrite_getElem?_lt w1 hi
    rw [e3, e2, e1]
  · intro hdisj
    refine ⟨?_, ?_, ?_⟩
    · apply memRead_of_getElem? (by omega) rfl
      intro i hi
      have e3 : m3[m.length - bs.length + i]? = m2[m.length - bs.length + i]? :=
        memWrite_getElem?_ge w3 (by rw [toLe32_length]; omega)
      have e2 : m2[m.length - bs.length + i]? = m1[m.length - bs.length + i]? :=
        memWrite_getElem?_ge w2 (by rw [toLe32_length]; omega)
      have e1 : m1[m.length - bs.length + i]? = bs[m.length - bs.length + i - (m.length - bs.length)]? :=
        memWrite_getElem?_mid w1 (by omega) (by omega)
      rw [e3, e2, e1]
      congr 1
      omega
    · apply memRead_of_getElem? (by omega) (toLe32_length _)
      intro i hi
      have e3 : m3[hdr + i]? = m2[hdr + i]? := memWrite_getElem?_lt w3 (by omega)
      have e2 : m2[hdr + i]? = (toLe32 (m.length - bs.length))[hdr + i - hdr]? :=
        memWrite_getElem?_mid w2 (by omega) (by rw [toLe32_length]; omega)
      rw [e3, e2]
      congr 1
      omega
    · apply memRead_of_getElem? (by omega) (toLe32_length _)
      intro i hi
      have e3 : m3[hdr + 4 + i]? = (toLe32 bs.length)[hdr + 4 + i - (hdr + 4)]? :=
        memWrite_getElem?_mid w3 (by omega) (by rw [toLe32_length]; omega)
      rw [e3]
      congr 1
      omega


/- ## Store and UTF-8 helper lemmas -/

theorem storeGet_eq_none_of_not_mem {st : Store} {k : Bytes} (h : k ∉ st.map Prod.fst) :
    storeGet st k = none := by
  induction st with
  | nil => rfl
  | cons p rest ih =>
    obtain ⟨k1, v⟩ := p
    simp only [List.map_cons, List.mem_cons, not_or] at h
    simp only [storeGet]
    rw [if_neg (fun e => h.1 e.symm)]
    exact ih h.2

theorem utf8Lossy_of_valid {l : Bytes} (h : ValidUtf8 l) : utf8Lossy l = l := by
  induction h with
  | nil => rfl
  | one hb _ ih =>
    rw [utf8Lossy.eq_def]
    simp only []
    rw [if_pos hb, ih]
  | two h1 h2 h3 h4 _ ih =>
    rw [utf8Lossy.eq_def]
    simp only []
    rw [if_neg (by omega), if_neg (by push_neg; omega), if_pos (by omega), if_pos (by omega), ih]
  | threeE0 h1 h2 h3 h4 _ ih =>
    rw [utf8Lossy.eq_def]
    simp only []
    rw [if_neg (by omega), if_neg (by push_neg; omega), if_neg (by omega), if_pos (by omega),
      if_pos (by simp; omega), if_pos (by omega), ih]
  | threeMid h0 h1 h2 h3 h4 h5 _ ih =>
    rw [utf8Lossy.eq_def]
    simp only []
    rw [if_neg (by omega), if_neg (by push_neg; omega), if_neg (by omega), if_pos (by omega),
      if_pos (by rw [if_neg (by omega), if_neg (by omega)]; omega), if_pos (by omega), ih]
  | threeED h1 h2 h3 h4 _ ih =>
    rw [utf8Lossy.eq_def]
    simp only []
    rw [if_neg (by omega), if_neg (by push_neg; omega), if_neg (by omega), if_pos (by omega),
      if_pos (by simp; omega), if_pos (by omega), ih]
  | threeHi h0 h1 h2 h3 h4 h5 _ ih =>
    rw [utf8Lossy.eq_def]
    simp only []
    rw [if_neg (by omega), if_neg (by push_neg; omega), if_neg (by omega), if_pos (by omega),
      if_pos (by rw [if_neg (by omega), if_neg (by omega)]; omega), if_pos (by omega), ih]
  | fourF0 h1 h2 h3 h4 h5 h6 _ ih =>
    rw [utf8Lossy.eq_def]
    simp only []
    rw [if_neg (by omega), if_neg (by push_neg; omega), if_neg (by omega), if_neg (by omega),
      if_pos (by simp; omega), if_pos (by omega), if_pos (by omega), ih]
  | fourMid h0 h1 h2 h3 h4 h5 h6 h7 _ ih =>
    rw [utf8Lossy.eq_def]
    simp only []
    rw [if_neg (by omega), if_neg (by push_neg; omega), if_neg (by omega), if_neg (by omega),
      if_pos (by rw [if_neg (by omega), if_neg (by omega)]; omega), if_pos (by omega),
      if_pos (by omega), ih]
  | fourF4 h1 h2 h3 h4 h5 h6 _ ih =>
    rw [utf8Lossy.eq_def]
    simp only []
    rw [if_neg (by omega), if_neg (by push_neg; omega), if_neg (by omega), if_neg (by omega),
      if_pos (by simp; omega), if_pos (by omega), if_pos (by omega), ih]

/- ## Claim theorems -/

/-- Claim C4: for the ephemeral (in-process) backend, `put(k, v)` followed by
`get(k)` returns `some v`, from every prior store state — whether or not `k`
was already present; in particular a second put to the same key replaces the
earlier value. -/
theorem ephemeral_put_get_roundtrip :
    (∀ (st : Store) (k v : Bytes), storeGet (storeInsert st k v) k = some v) ∧
    (∀ (st : Store) (k v1 v2 : Bytes),
      storeGet (storeInsert (storeInsert st k v1) k v2) k = some v2) := by
  constructor
  · intro st k v
    simp [storeGet, storeInsert]
  · intro st k v1 v2
    simp [storeGet, storeInsert]

/-- Claim C5: a key never written in a store instance is not an error: `get`
returns `none` (absent), and `read_key_func` translates the absence into the
empty byte string, writing result length `0` (and tail offset = the region
size) into the guest-visible header. -/
theorem absent_key_reads_empty (st : Store) (m : Bytes) (rb kb kl : Nat) (key : Bytes)
    (hnever : key ∉ st.map Prod.fst)
    (hk : memRead m kb kl = some key)
    (hh : rb + 8 ≤ m.length) :
    storeGet st key = none ∧
    ∃ mf, read_key_func st m rb kb kl = some (st, mf) ∧
      memRead mf rb 4 = some (toLe32 m.length) ∧
      memRead mf (rb + 4) 4 = some (toLe32 0) := by
  have habs : storeGet st key = none := storeGet_eq_none_of_not_mem hnever
  refine ⟨habs, ?_⟩
  obtain ⟨m3, henc, hlen, hframe, hreads⟩ := @tailEncode_spec m [] rb (by simp) (by omega)
  obtain ⟨hr1, hr2, hr3⟩ := hreads (by simp; omega)
  refine ⟨m3, ?_, ?_, ?_⟩
  · rw [read_key_func_eq_tailEncode, hk]
    simp only [Option.some_bind]
    rw [habs]
    simp only [Option.getD_none]
    rw [henc]
    rfl
  · simpa using hr2
  · simpa using hr3

/-- Witness for C5 at a concrete input: a 16-byte zero region, the key `[0]`
read from offset 0, which the seeded store has never bound. -/
theorem absent_key_reads_empty_wit :
    storeGet seedStore [0] = none ∧
    ∃ mf, read_key_func seedStore (List.replicate 16 0) 0 0 1 = some (seedStore, mf) ∧
      memRead mf 0 4 = some (toLe32 16) ∧
      memRead mf 4 4 = some (toLe32 0) := by
  have h := absent_key_reads_empty seedStore (List.replicate 16 0) 0 0 1 [0]
    (by decide) (by decide) (by decide)
  simpa using h

/-- Claim C1: a host access through a handle whose `base + length` exceeds the
current region size is a fatal abort, at each access site — the key read and
the value read of `write_key_func`, the key read of `read_key_func`, and the
orchestrator's final result slice — and a region read that does succeed yields
exactly the addressed bytes, never truncated, clamped or wrapped. -/
theorem bounds_violation_aborts :
    (∀ (st : Store) (m : Bytes) (kb kl vb vl : Nat), m.length < kb + kl →
      write_key_func st m kb kl vb vl = none) ∧
    (∀ (st : Store) (m : Bytes) (kb kl vb vl : Nat), m.length < vb + vl →
      write_key_func st m kb kl vb vl = none) ∧
    (∀ (st : Store) (m : Bytes) (rb kb kl : Nat), m.length < kb + kl →
      read_key_func st m rb kb kl = none) ∧
    (∀ (m : Bytes) (base len : Nat), m.length < base + len → memRead m base len = none) ∧
    (∀ (m bs : Bytes) (base len : Nat), memRead m base len = some bs →
      base + len ≤ m.length ∧ bs.length = len ∧ ∀ i, i < len → bs[i]? = m[base + i]?) ∧
    (∀ (m hb lb : Bytes), memRead m 0 4 = some hb → memRead m 4 4 = some lb →
      m.length < i32AsUsize (fromLe32 hb) + i32AsUsize (fromLe32 lb) →
      extractResult m = none) := by
  refine ⟨?_, ?_, ?_, ?_, ?_, ?_⟩
  · intro st m kb kl vb vl h
    unfold write_key_func
    rw [memRead_none h]
    rfl
  · intro st m kb kl vb vl h
    unfold write_key_func
    cases memRead m kb kl with
    | none => rfl
    | some key =>
      simp only [Option.bind_eq_bind, Option.some_bind]
      rw [memRead_none h]
      rfl
  · intro st m rb kb kl h
    unfold read_key_func
    rw [memRead_none h]
    rfl
  · intro m base len h
    exact memRead_none h
  · intro m bs base len h
    exact ⟨(memRead_eq_some_iff.mp h).1, memRead_length h, fun i hi => memRead_getElem? h hi⟩
  · intro m hb lb h0 h4 hlen
    unfold extractResult
    rw [h0]
    simp only [Option.bind_eq_bind, Option.some_bind]
    rw [h4]
    simp only [Option.some_bind]
    exact memRead_none hlen

/-- Witness for C1, each access site at a concrete out-of-bounds input (and
one in-bounds read returning the exact bytes): region `[9, 5]` has size 2. -/
theorem bounds_violation_aborts_wit :
    write_key_func [] [9, 5] 1 2 0 0 = none ∧
    write_key_func [] [9, 5] 0 1 1 2 = none ∧
    read_key_func [] [9, 5] 0 1 2 = none ∧
    memRead [9, 5] 1 2 = none ∧
    (1 + 1 ≤ 2 ∧ ([5] : Bytes).length = 1 ∧
      ∀ i, i < 1 → ([5] : Bytes)[i]? = [9, 5][1 + i]?) ∧
    extractResult [9, 0, 0, 0, 1, 0, 0, 0] = none :=
  ⟨bounds_violation_aborts.1 [] [9, 5] 1 2 0 0 (by decide),
   bounds_violation_aborts.2.1 [] [9, 5] 0 1 1 2 (by decide),
   bounds_violation_aborts.2.2.1 [] [9, 5] 0 1 2 (by decide),
   bounds_violation_aborts.2.2.2.1 [9, 5] 1 2 (by decide),
   bounds_violation_aborts.2.2.2.2.1 [9, 5] [5] 1 1 (by decide),
   bounds_violation_aborts.2.2.2.2.2 [9, 0, 0, 0, 1, 0, 0, 0] [9, 0, 0, 0] [1, 0, 0, 0]
     (by decide) (by decide) (by decide)⟩

/-- Claim C2: the buffer round trip of the marshaling protocol.  Encoding a
byte string of any length `L` (including `L = 0`) by the tail-write convention
and then decoding it through the `(offset, length)` header yields back exactly
the original bytes, whenever the 8 header bytes fit below the payload tail (the
regime of every use in the source: the header sits at the low offsets of a
region not exceeding wasm32's 2 GiB addressable sizes). -/
theorem tail_roundtrip (m bs : Bytes) (hdr : Nat)
    (hm : m.length < 2147483648)
    (hh : hdr + 8 ≤ m.length - bs.length) :
    (tailEncode m hdr bs).bind (fun mm => tailDecode mm hdr) = some bs := by
  have hbs : bs.length ≤ m.length := by omega
  obtain ⟨m3, henc, hlen, _, hreads⟩ := @tailEncode_spec m bs hdr hbs (by omega)
  obtain ⟨hr1, hr2, hr3⟩ := hreads hh
  rw [henc]
  simp only [Option.some_bind]
  unfold tailDecode
  rw [hr2]
  simp only [Option.bind_eq_bind, Option.some_bind]
  rw [hr3]
  simp only [Option.some_bind]
  rw [fromLe32_toLe32 (by omega), fromLe32_toLe32 (by omega),
    i32AsUsize_small (by omega), i32AsUsize_small (by omega)]
  exact hr1

/-- Witness for C2 at concrete inputs: a 16-byte zero region, header at offset
0, once with the one-byte payload `[7]` and once with the empty payload. -/
theorem tail_roundtrip_wit :
    (tailEncode (List.replicate 16 0) 0 [7]).bind
        (fun mm => tailDecode mm 0) = some [7] ∧
    (tailEncode (List.replicate 16 0) 0 []).bind
        (fun mm => tailDecode mm 0) = some [] :=
  ⟨tail_roundtrip (List.replicate 16 0) [7] 0 (by decide) (by decide),
   tail_roundtrip (List.replicate 16 0) [] 0 (by decide) (by decide)⟩

/-- Claim C3: when `read_key_func` produces a result of length `N`, it writes
the `N` result bytes at offset `(current region size) - N` — the subtraction
taken from the region size current at this very invocation, there being no
intervening growth — and then stores the result offset as a little-endian `u32`
at the caller-supplied header offset and the result length as a little-endian
`u32` at header offset + 4. -/
theorem read_key_writes_tail_and_header (st : Store) (m : Bytes) (rb kb kl : Nat)
    (key res : Bytes)
    (hk : memRead m kb kl = some key)
    (hres : (storeGet st key).getD [] = res)
    (hh : rb + 8 ≤ m.length - res.length) :
    ∃ mf, read_key_func st m rb kb kl = some (st, mf) ∧
      memRead mf (m.length - res.length) res.length = some res ∧
      memRead mf rb 4 = some (toLe32 (m.length - res.length)) ∧
      memRead mf (rb + 4) 4 = some (toLe32 res.length) := by
  have hbs : res.length ≤ m.length := by omega
  obtain ⟨m3, henc, hlen, _, hreads⟩ := @tailEncode_spec m res rb hbs (by omega)
  obtain ⟨hr1, hr2, hr3⟩ := hreads hh
  refine ⟨m3, ?_, hr1, hr2, hr3⟩
  rw [read_key_func_eq_tailEncode, hk]
  simp only [Option.some_bind]
  rw [hres, henc]
  rfl

/-- Witness for C3 at a concrete input: a 16-byte region with `b"foo"` at
offset 8, the seeded store binding `foo -> bar`; the 3 result bytes land at
offset 13 = 16 - 3 and the header words at offsets 0 and 4. -/
theorem read_key_writes_tail_and_header_wit :
    ∃ mf, read_key_func seedStore (List.replicate 8 0 ++ fooBytes ++ List.replicate 5 0)
        0 8 3 = some (seedStore, mf) ∧
      memRead mf 13 3 = some barBytes ∧
      memRead mf 0 4 = some (toLe32 13) ∧
      memRead mf 4 4 = some (toLe32 3) := by
  have h := read_key_writes_tail_and_header seedStore
    (List.replicate 8 0 ++ fooBytes ++ List.replicate 5 0) 0 8 3 fooBytes barBytes
    (by decide) (by decide) (by decide)
  simpa using h

/-- Claim C10 (frame property): a successful `read_key_func` with a result of
length `N` changes at most the `N` tail bytes `[size - N, size)` and the 8
header bytes `[rb, rb + 8)`; every other byte of guest memory is unchanged,
the region size is unchanged, and the capability store is returned exactly as
it was (`read_key_func` only reads it). -/
theorem read_key_frame (st : Store) (m : Bytes) (rb kb kl : Nat) (key res : Bytes)
    (hk : memRead m kb kl = some key)
    (hres : (storeGet st key).getD [] = res)
    (hN : res.length ≤ m.length)
    (hh : rb + 8 ≤ m.length) :
    ∃ mf, read_key_func st m rb kb kl = some (st, mf) ∧
      mf.length = m.length ∧
      ∀ i, i < m.length - res.length → (i < rb ∨ rb + 8 ≤ i) → mf[i]? = m[i]? := by
  obtain ⟨m3, henc, hlen, hframe, _⟩ := @tailEncode_spec m res rb hN hh
  refine ⟨m3, ?_, hlen, hframe⟩
  rw [read_key_func_eq_tailEncode, hk]
  simp only [Option.some_bind]
  rw [hres, henc]
  rfl

/-- Witness for C10 at a concrete input: the C3 scenario with the header at
offset 4; bytes outside the tail `[13, 16)` and the header `[4, 12)` keep
their values. -/
theorem read_key_frame_wit :
    ∃ mf, read_key_func seedStore (List.replicate 8 0 ++ fooBytes ++ List.replicate 5 0)
        4 8 3 = some (seedStore, mf) ∧
      mf.length = 16 ∧
      ∀ i, i < 13 → (i < 4 ∨ 12 ≤ i) →
        mf[i]? = (List.replicate 8 0 ++ fooBytes ++ List.replicate 5 0)[i]? := by
  have h := read_key_frame seedStore
    (List.replicate 8 0 ++ fooBytes ++ List.replicate 5 0) 4 8 3 fooBytes barBytes
    (by decide) (by decide) (by decide) (by decide)
  simpa using h

/-- Claim C6: for every request, the orchestrator writes the raw body into
guest memory at fixed offset 8 before the call — so the memory handed to the
entry point holds exactly the body there — invokes the entry point with
arguments `(result_header_offset = 0, body_offset = 8, body_length)` against
the per-request seeded store, and afterwards obtains its result by reading the
little-endian `u32` words at offsets 0 and 4 of the final memory and slicing
that range (`extractResult`). -/
theorem orchestrator_body_and_extract (entry : GuestEntry) (body m0 m1 : Bytes)
    (hw : memWrite m0 8 body = some m1) :
    memRead m1 8 body.length = some body ∧
    function_handler entry body m0 =
      (entry 0 8 body.length seedStore m1).bind (fun r => extractResult r.2) := by
  constructor
  · apply memRead_of_getElem? ?_ rfl ?_
    · rw [memWrite_length hw]
      exact (memWrite_eq_some_iff.mp hw).1
    · intro i hi
      rw [memWrite_getElem?_mid hw (by omega) (by omega)]
      congr 1
      omega
  · unfold function_handler extractResult
    rw [hw]
    simp only [Option.bind_eq_bind, Option.some_bind]

/-- Witness for C6 at a concrete input: body `[5]` into a 16-byte zero region,
with a guest that returns immediately. -/
theorem orchestrator_body_and_extract_wit :
    memRead [0, 0, 0, 0, 0, 0, 0, 0, 5, 0, 0, 0, 0, 0, 0, 0] 8 1 = some [5] ∧
    function_handler (fun _ _ _ st m => some (st, m)) [5] (List.replicate 16 0) =
      ((fun _ _ _ st m => some (st, m) : GuestEntry) 0 8 1 seedStore
          [0, 0, 0, 0, 0, 0, 0, 0, 5, 0, 0, 0, 0, 0, 0, 0]).bind
        (fun r => extractResult r.2) :=
  orchestrator_body_and_extract (fun _ _ _ st m => some (st, m)) [5]
    (List.replicate 16 0) [0, 0, 0, 0, 0, 0, 0, 0, 5, 0, 0, 0, 0, 0, 0, 0] (by decide)

/-- Claim C9: `function_handler` constructs a fresh capability store for every
request it handles, so in a batch of requests the response at each position is
a function of that request's body alone — no get issued during one request can
observe a put issued during another (two-run noninterference across requests:
replacing the surrounding requests never changes the response). -/
theorem request_noninterference (entry : GuestEntry) (m0 : Bytes)
    (pre post : List Bytes) (b : Bytes) :
    (server_run entry m0 (pre ++ b :: post))[pre.length]? =
      some (function_handler entry b m0) := by
  unfold server_run
  rw [List.getElem?_map, List.getElem?_append_right (Nat.le_refl _), Nat.sub_self]
  simp

/-- Counterexample to claim C7 as stated.  The claim has the guest first write
`key = b"world", value = b"hello"`; were that the guest's behaviour, the keys
ever bound during the request would be `b"foo"` (the seed) and `b"world"`, so
the final store would have no binding for `b"hello"` (`storeGet` would be
`none`).  Running the embedded guest of lib.rs on the concrete scenario —
body `b"hello"`, store seeded `foo -> bar` — instead leaves
`get(b"hello") = some b"world"`: the source's first capability call
(`datastore::write(body, b"world")`, lib.rs line 46) uses the body `b"hello"`
as the key and `b"world"` as the value, not the other way round. -/
theorem guest_first_write_cex :
    demoRun.map (fun p => storeGet p.1 helloBytes) = some (some worldBytes) ∧
    (some (some worldBytes) : Option (Option Bytes)) ≠ some none := by
  constructor
  · decide
  · decide

/-- Claim C7, amended to the source's actual argument order: for request body
`b"hello"` with the store pre-seeded `foo -> bar`, the guest writes
`key = b"hello" (the body), value = b"world"`, then reads `key = b"foo"`
obtaining `b"bar"`, then writes `key = b"world", value = b"bar"`, and the
orchestrator extracts exactly `b"bar"` as the final result bytes.  The store
facts below pin the writes: the final store binds `b"hello" -> b"world"`,
`b"world" -> b"bar"` (the value obtained from the `b"foo"` read) and retains
`b"foo" -> b"bar"`. -/
theorem end_to_end_scenario :
    function_handler (guest_entry 16 24 32 40) helloBytes demoMem = some barBytes ∧
    demoRun.map (fun p => storeGet p.1 helloBytes) = some (some worldBytes) ∧
    demoRun.map (fun p => storeGet p.1 worldBytes) = some (some barBytes) ∧
    demoRun.map (fun p => storeGet p.1 fooBytes) = some (some barBytes) := by
  refine ⟨by decide, by decide, by decide, by decide⟩

/-- Counterexample to claim C8 as stated.  The durable backend's key
translation `String::from_utf8_lossy` is not injective on byte keys: the
distinct one-byte keys `[0xFF]` and `[0xFE]` are both ill-formed UTF-8 and
both become the replacement character U+FFFD, so `put_item` under one key is
observed by `get_item` under the other — they address the same service key. -/
theorem dynamo_key_collision_cex :
    ([255] : Bytes) ≠ [254] ∧
    utf8Lossy [255] = utf8Lossy [254] ∧
    dynamo_get_item (dynamo_put_item [] [255] [1]) [254] = some [1] := by
  refine ⟨by decide, by decide, by decide⟩

/-- Claim C8, amended to the domain the translation is faithful on: for keys
that are well-formed UTF-8 the lossy conversion is the identity, so two
distinct valid keys address distinct service keys and the durable backend
satisfies the ephemeral backend's put/get contract there — `get` after `put`
returns the value, and a `put` under one key never affects a `get` under a
different one.  (By `dynamo_key_collision_cex` this fails for ill-formed
keys.) -/
theorem dynamo_distinct_valid_keys (t : Table) (k1 k2 v : Bytes)
    (h1 : ValidUtf8 k1) (h2 : ValidUtf8 k2) (hne : k1 ≠ k2) :
    dynamo_get_item (dynamo_put_item t k1 v) k1 = some v ∧
    dynamo_get_item (dynamo_put_item t k1 v) k2 = dynamo_get_item t k2 := by
  unfold dynamo_get_item dynamo_put_item
  rw [utf8Lossy_of_valid h1, utf8Lossy_of_valid h2]
  constructor
  · simp [storeGet, storeInsert]
  · simp only [storeGet, storeInsert]
    rw [if_neg hne]

/-- Witness for the amended C8 at concrete inputs: the valid UTF-8 keys
`b"foo"` and `b"b"`. -/
theorem dynamo_distinct_valid_keys_wit :
    dynamo_get_item (dynamo_put_item [] fooBytes [1]) fooBytes = some [1] ∧
    dynamo_get_item (dynamo_put_item [] fooBytes [1]) [98] = dynamo_get_item [] [98] :=
  dynamo_distinct_valid_keys [] fooBytes [98] [1]
    (ValidUtf8.one (by decide) (ValidUtf8.one (by decide)
      (ValidUtf8.one (by decide) ValidUtf8.nil)))
    (ValidUtf8.one (by decide) ValidUtf8.nil)
    (by decide)

end Wasmtest
